import Mathlib

/-!
Verification development for the tradelens options-analytics core:
the open-interest aggregator and derived-metric extractors of
`modules/providers/tradier.py` and the max pain calculator of
`modules/max_pain.py`, embedded shallowly.

Strikes, open interest, volume and cash values are embedded as exact
integers (every claim under study is independent of the carrier of the
exact numeric values); quotation and greeks fields, which are only carried
and never computed on, and the put/call ratio, a true division, are exact
rationals. Python exceptions are modelled by `Option` results (`none` =
the function raises).
-/

namespace TradeLens

/-- Option side, per the chain data model: `option_type` is `"call"` or `"put"`. -/
inductive OptionType
  | call
  | put
deriving DecidableEq, Repr

/-- The greeks record attached to a contract (`greeks` key of a chain record). -/
structure GreeksRec where
  delta : ℚ
  gamma : ℚ
  theta : ℚ
  vega : ℚ
  rho : ℚ
  mid_iv : ℚ
deriving DecidableEq, Repr

/-- One option contract record as consumed by the core: the fields of a raw
chain record that the extractors read. `greeks` may be absent (`None`). -/
structure Contract where
  strike : ℤ
  option_type : OptionType
  open_interest : ℤ
  volume : ℤ
  greeks : Option GreeksRec
  last : ℚ
  bid : ℚ
  ask : ℚ
deriving DecidableEq, Repr

/-- Python dict single-key update: `d[k] = v`. If the key is present its value
is overwritten in place (iteration order keeps the original position);
otherwise the pair is appended (insertion order). -/
def insertLWW {α : Type} (m : List (ℤ × α)) (k : ℤ) (v : α) : List (ℤ × α) :=
  if m.any (fun p => decide (p.1 = k)) then
    m.map (fun p => if p.1 = k then (k, v) else p)
  else
    m ++ [(k, v)]

/-- Building a Python dict by repeated assignment `d[p.1] = p.2` over a pair
list, then reading it back with `.items()` (insertion order, last write wins). -/
def dictOfPairs {α : Type} (l : List (ℤ × α)) : List (ℤ × α) :=
  l.foldl (fun m p => insertLWW m p.1 p.2) []

/-- The shared loop of `get_open_interest` / `_get_volume` /
`_get_implied_volatility` / `_get_last_bid_ask` (tradier.py): walk the chain,
and for each record assign `side_data[strike] = f(record)` into the call-side
or put-side dict according to `option_type`. Returns (call_list, put_list). -/
def splitField {α : Type} (f : Contract → α) (chain : List Contract) :
    List (ℤ × α) × List (ℤ × α) :=
  chain.foldl (fun acc t =>
    match t.option_type with
    | OptionType.call => (insertLWW acc.1 t.strike (f t), acc.2)
    | OptionType.put => (acc.1, insertLWW acc.2 t.strike (f t))) ([], [])

/-- The pairs fed into one side's dict by `splitField f`: the chain records of
that `option_type`, in provider order, as (strike, f record). -/
def pairsOf {α : Type} (f : Contract → α) (ty : OptionType) (chain : List Contract) :
    List (ℤ × α) :=
  chain.filterMap (fun t => if t.option_type = ty then some (t.strike, f t) else none)

/-- The zipped totals loop of `get_open_interest` (tradier.py lines 119-127):
`for call, put in zip(call_list, put_list): total_call += ...; total_put += ...`. -/
def oiTotals (cl pl : List (ℤ × ℤ)) : ℤ × ℤ :=
  (cl.zip pl).foldl (fun acc p => (acc.1 + p.1.2, acc.2 + p.2.2)) (0, 0)

/-- The `data` payload of `Tradier.get_open_interest`. -/
structure OIResult where
  Calls : List (ℤ × ℤ)
  Puts : List (ℤ × ℤ)
  total_call_oi : ℤ
  total_put_oi : ℤ
  put_call_ratio : ℚ
deriving DecidableEq, Repr

/-- `Tradier.get_open_interest`: build the per-side strike dicts, total open
interest over `zip(call_list, put_list)`, then compute
`put_call_ratio = total_put_oi / total_call_oi`. In Python the division
raises `ZeroDivisionError` when `total_call_oi == 0`; that raise is modelled
as `none`. -/
def get_open_interest (chain : List Contract) : Option OIResult :=
  let s := splitField (fun t => t.open_interest) chain
  let tot := oiTotals s.1 s.2
  if tot.1 = 0 then none
  else some ⟨s.1, s.2, tot.1, tot.2, (tot.2 : ℚ) / (tot.1 : ℚ)⟩

/-- `Tradier._get_volume`: same split, extracting the `volume` field. -/
def get_volume (chain : List Contract) : List (ℤ × ℤ) × List (ℤ × ℤ) :=
  splitField (fun t => t.volume) chain

/-- The `{last, bid, ask}` record stored per strike by `_get_last_bid_ask`. -/
structure LastBidAsk where
  last : ℚ
  bid : ℚ
  ask : ℚ
deriving DecidableEq, Repr

/-- `Tradier._get_last_bid_ask`: same split, extracting last/bid/ask. -/
def get_last_bid_ask (chain : List Contract) :
    List (ℤ × LastBidAsk) × List (ℤ × LastBidAsk) :=
  splitField (fun t => LastBidAsk.mk t.last t.bid t.ask) chain

/-- `Tradier._get_greeks`: appends `{'strike': ..., 'greeks': record.get('greeks')}`
to a plain list per side (no dict, duplicates kept, provider order). -/
def get_greeks (chain : List Contract) :
    List (ℤ × Option GreeksRec) × List (ℤ × Option GreeksRec) :=
  chain.foldl (fun acc t =>
    match t.option_type with
    | OptionType.call => (acc.1 ++ [(t.strike, t.greeks)], acc.2)
    | OptionType.put => (acc.1, acc.2 ++ [(t.strike, t.greeks)])) ([], [])

/-- `Tradier._get_implied_volatility`: the extraction loop reads
`record['greeks'].get('mid_iv')`, which raises `AttributeError` when `greeks`
is `None`; the surrounding `try/except` then returns the empty dict `{}`.
`none` models that `{}` fallback; `some` carries the (Calls, Puts) lists. -/
def get_implied_volatility (chain : List Contract) :
    Option (List (ℤ × ℚ) × List (ℤ × ℚ)) :=
  if chain.all (fun t => t.greeks.isSome) then
    some (splitField (fun t => (t.greeks.map GreeksRec.mid_iv).getD 0) chain)
  else
    none

/-- Python `sorted(set(xs))`: the distinct elements in ascending order. -/
def sortedDedup (xs : List ℤ) : List ℤ :=
  List.insertionSort (fun a b => a ≤ b) xs.dedup

/-- Per-contract call-side cash value at hypothetical close `close`
(max_pain.py lines 70-75): `(close - strike) * open_interest * 100`, set to 0
when negative. -/
def payoffCall (close strike oi : ℤ) : ℤ :=
  if (close - strike) * oi * 100 < 0 then 0 else (close - strike) * oi * 100

/-- Per-contract put-side cash value at hypothetical close `close`
(max_pain.py lines 88-92): `(strike - close) * open_interest * 100`, set to 0
when negative. -/
def payoffPut (close strike oi : ℤ) : ℤ :=
  if (strike - close) * oi * 100 < 0 then 0 else (strike - close) * oi * 100

/-- A `{'strike': ..., 'cash': ...}` entry of the max pain lists. -/
structure StrikeCash where
  strike : ℤ
  cash : ℤ
deriving DecidableEq, Repr

/-- The inner accumulation loop for one hypothetical close on the call side:
sum the per-contract cash values over all (strike, open_interest) records. -/
def callCashSum (close : ℤ) (calls : List (ℤ × ℤ)) : ℤ :=
  calls.foldl (fun s p => s + payoffCall close p.1 p.2) 0

/-- Same for the put side. -/
def putCashSum (close : ℤ) (puts : List (ℤ × ℤ)) : ℤ :=
  puts.foldl (fun s p => s + payoffPut close p.1 p.2) 0

/-- `call_cash_values` (max_pain.py lines 59-81): one entry per hypothetical
close, i.e. per element of `sorted(set(call_strikes))`. -/
def callCashValues (calls : List (ℤ × ℤ)) : List StrikeCash :=
  (sortedDedup (calls.map Prod.fst)).map (fun close => ⟨close, callCashSum close calls⟩)

/-- `put_cash_values` (max_pain.py lines 84-96). -/
def putCashValues (puts : List (ℤ × ℤ)) : List StrikeCash :=
  (sortedDedup (puts.map Prod.fst)).map (fun close => ⟨close, putCashSum close puts⟩)

/-- The positional summation loop (max_pain.py lines 98-101):
`for i in range(len(call_cash_values))` access `put_cash_values[i]` and append
the pairwise entry. Indexing past the end of `put_cash_values` raises
`IndexError`, modelled as `none`. -/
def sumCashValues : List StrikeCash → List StrikeCash → Option (List StrikeCash)
  | [], _ => some []
  | _ :: _, [] => none
  | c :: cs, p :: ps =>
      (sumCashValues cs ps).map (fun rest => ⟨c.strike, c.cash + p.cash⟩ :: rest)

/-- Python `min(list)`: raises `ValueError` on an empty list (`none`),
otherwise folds `min` from the first element. -/
def listMin : List ℤ → Option ℤ
  | [] => none
  | x :: xs => some (xs.foldl min x)

/-- The max pain selection (max_pain.py lines 104-107): the minimum summed
cash value, and the first strike (in list order) whose cash equals it. -/
def maxPain (scv : List StrikeCash) : Option StrikeCash :=
  match listMin (scv.map StrikeCash.cash) with
  | none => none
  | some m => (scv.find? (fun e => decide (e.cash = m))).map (fun e => ⟨e.strike, m⟩)

/-- The `data` payload of `MaxPain.get_cash_values`. -/
structure MaxPainData where
  Calls : List StrikeCash
  Puts : List StrikeCash
  Sums : List StrikeCash
  max_pain : StrikeCash
deriving DecidableEq, Repr

/-- `MaxPain.get_cash_values` end to end on a chain: fetch the open interest
data (an exception there propagates), build the per-side cash value lists
from the aggregator's call/put lists, sum positionally, and select max pain.
The early `return []` guard for missing data is unreachable because
`get_open_interest` always returns a dict containing `'data'` or raises. -/
def get_cash_values (chain : List Contract) : Option MaxPainData :=
  match get_open_interest chain with
  | none => none
  | some oi =>
    let ccv := callCashValues oi.Calls
    let pcv := putCashValues oi.Puts
    match sumCashValues ccv pcv with
    | none => none
    | some scv =>
      match maxPain scv with
      | none => none
      | some mp => some ⟨ccv, pcv, scv, mp⟩

/-- The call-side records of a chain, in provider order (the records taking
the `option_type == 'call'` branch of the extractor loops). -/
def callContracts (chain : List Contract) : List Contract :=
  chain.filter (fun t => decide (t.option_type = OptionType.call))

/-- The put-side records of a chain, in provider order. -/
def putContracts (chain : List Contract) : List Contract :=
  chain.filter (fun t => decide (t.option_type = OptionType.put))

/-- First-match association lookup in a dict rendered as a pair list. -/
def assocFind {α : Type} (m : List (ℤ × α)) (k : ℤ) : Option α :=
  (m.find? (fun p => decide (p.1 = k))).map Prod.snd

/-- The value of the last pair with key `k`, scanning left to right
(last write wins). -/
def assocLast {α : Type} (l : List (ℤ × α)) (k : ℤ) : Option α :=
  l.foldl (fun acc p => if p.1 = k then some p.2 else acc) none

/-- Left-biased choice on `Option`, used to express "later writes win". -/
def ofirst {α : Type} : Option α → Option α → Option α
  | some v, _ => some v
  | none, b => b

/-- A call contract carrying only strike and open interest (other fields zeroed),
for concrete test chains. -/
def mkCall (s oi : ℤ) : Contract :=
  ⟨s, OptionType.call, oi, 0, none, 0, 0, 0⟩

/-- A put contract carrying only strike and open interest. -/
def mkPut (s oi : ℤ) : Contract :=
  ⟨s, OptionType.put, oi, 0, none, 0, 0, 0⟩

/-- A chain with put open interest but zero call records: the put/call ratio
division hits a zero denominator. -/
def putOnlyChain : List Contract := [mkPut 100 300]

/-- A chain whose call strikes arrive in descending provider order. -/
def descendingChain : List Contract := [mkCall 110 1, mkCall 100 2]

/-- One call and one put at the same strike. -/
def onePairChain : List Contract := [mkCall 100 10, mkPut 100 5]

/-- The aggregator output on `onePairChain`. -/
def onePairOI : OIResult :=
  ⟨[(100, 10)], [(100, 5)], 10, 5, ((5 : ℤ) : ℚ) / ((10 : ℤ) : ℚ)⟩

/-- A chain with a duplicate (strike, option_type) pair: two call records at
strike 100. -/
def dupStrikeChain : List Contract := [mkCall 100 1, mkCall 100 2]

/-- An all-zero greeks record. -/
def gZero : GreeksRec := ⟨0, 0, 0, 0, 0, 0⟩

/-- A one-contract chain whose record carries a greeks block, so the implied
volatility extraction succeeds. -/
def ivChain : List Contract := [⟨100, OptionType.call, 10, 0, some gZero, 0, 0, 0⟩]

/-! ### Dictionary lemmas -/

theorem mem_map_fst_iff_any {α : Type} (m : List (ℤ × α)) (k : ℤ) :
    (m.any (fun p => decide (p.1 = k)) = true) ↔ k ∈ m.map Prod.fst := by
  simp [List.any_eq_true, List.mem_map]

theorem insertLWW_map_fst {α : Type} (m : List (ℤ × α)) (k : ℤ) (v : α) :
    (insertLWW m k v).map Prod.fst =
      if k ∈ m.map Prod.fst then m.map Prod.fst else m.map Prod.fst ++ [k] := by
  unfold insertLWW
  by_cases h : k ∈ m.map Prod.fst
  · rw [if_pos ((mem_map_fst_iff_any m k).2 h), if_pos h, List.map_map]
    apply List.map_congr_left
    intro p _
    by_cases hpk : p.1 = k
    · simp [hpk]
    · simp [hpk]
  · rw [if_neg (fun hc => h ((mem_map_fst_iff_any m k).1 hc)), if_neg h, List.map_append]
    rfl

theorem insertLWW_nodup {α : Type} (m : List (ℤ × α)) (k : ℤ) (v : α)
    (h : (m.map Prod.fst).Nodup) : ((insertLWW m k v).map Prod.fst).Nodup := by
  rw [insertLWW_map_fst]
  by_cases hk : k ∈ m.map Prod.fst
  · rw [if_pos hk]
    exact h
  · rw [if_neg hk]
    refine List.Nodup.append h (List.nodup_singleton _) ?_
    simpa [List.disjoint_singleton] using hk

theorem insertLWW_mem_fst {α : Type} (m : List (ℤ × α)) (k : ℤ) (v : α) (a : ℤ) :
    a ∈ (insertLWW m k v).map Prod.fst ↔ a ∈ m.map Prod.fst ∨ a = k := by
  rw [insertLWW_map_fst]
  by_cases hk : k ∈ m.map Prod.fst
  · rw [if_pos hk]
    constructor
    · exact Or.inl
    · rintro (h | rfl)
      · exact h
      · exact hk
  · rw [if_neg hk]
    simp

theorem find_overwrite_eq {α : Type} (m : List (ℤ × α)) (k : ℤ) (v : α) :
    ((m.map (fun p => if p.1 = k then (k, v) else p)).find? (fun p => decide (p.1 = k))) =
      (m.find? (fun p => decide (p.1 = k))).map (fun _ => (k, v)) := by
  induction m with
  | nil => rfl
  | cons p rest ih =>
    by_cases h : p.1 = k
    · simp [List.find?_cons, h]
    · simp [List.find?_cons, h, ih]

theorem find_overwrite_ne {α : Type} (m : List (ℤ × α)) (k : ℤ) (v : α) (q : ℤ)
    (hqk : q ≠ k) :
    ((m.map (fun p => if p.1 = k then (k, v) else p)).find? (fun p => decide (p.1 = q))) =
      m.find? (fun p => decide (p.1 = q)) := by
  induction m with
  | nil => rfl
  | cons p rest ih =>
    by_cases h : p.1 = k
    · have : ¬ (k = q) := fun hc => hqk hc.symm
      simp [List.find?_cons, h, this, ih]
    · by_cases hq : p.1 = q
      · simp [List.find?_cons, h, hq, hqk]
      · simp [List.find?_cons, h, hq, ih]

theorem assocFind_insertLWW {α : Type} (m : List (ℤ × α)) (k : ℤ) (v : α) (q : ℤ) :
    assocFind (insertLWW m k v) q = if q = k then some v else assocFind m q := by
  unfold insertLWW assocFind
  by_cases hmem : k ∈ m.map Prod.fst
  · rw [if_pos ((mem_map_fst_iff_any m k).2 hmem)]
    by_cases hq : q = k
    · subst hq
      rw [if_pos rfl, find_overwrite_eq]
      obtain ⟨p, hp, hpk⟩ := List.mem_map.1 hmem
      have hs : (m.find? (fun p => decide (p.1 = q))).isSome := by
        rw [List.find?_isSome]
        exact ⟨p, hp, by simpa using hpk⟩
      obtain ⟨p₀, hp₀⟩ := Option.isSome_iff_exists.1 hs
      rw [hp₀]
      rfl
    · rw [if_neg hq, find_overwrite_ne m k v q hq]
  · rw [if_neg (fun hc => hmem ((mem_map_fst_iff_any m k).1 hc)), List.find?_append]
    by_cases hq : q = k
    · subst hq
      have : m.find? (fun p => decide (p.1 = q)) = none := by
        rw [List.find?_eq_none]
        intro p hp hc
        exact hmem (List.mem_map.2 ⟨p, hp, by simpa using hc⟩)
      simp [this]
    · have hne : ¬ (k = q) := fun hc => hq hc.symm
      simp [List.find?_cons, hne, hq]

theorem ofirst_none_right {α : Type} (a : Option α) : ofirst a none = a := by
  cases a <;> rfl

theorem ofirst_assoc {α : Type} (a b c : Option α) :
    ofirst (ofirst a b) c = ofirst a (ofirst b c) := by
  cases a <;> rfl

theorem assocLast_cons {α : Type} (p : ℤ × α) (rest : List (ℤ × α)) (k : ℤ) :
    assocLast (p :: rest) k =
      ofirst (assocLast rest k) (if p.1 = k then some p.2 else none) := by
  have aux : ∀ (l : List (ℤ × α)) (a : Option α),
      l.foldl (fun acc q => if q.1 = k then some q.2 else acc) a =
        ofirst (l.foldl (fun acc q => if q.1 = k then some q.2 else acc) none) a := by
    intro l
    induction l with
    | nil => intro a; rfl
    | cons q rest ih =>
      intro a
      show List.foldl _ (if q.1 = k then some q.2 else a) rest = _
      rw [ih (if q.1 = k then some q.2 else a),
        show (List.foldl (fun acc q => if q.1 = k then some q.2 else acc) none (q :: rest)) =
          List.foldl _ (if q.1 = k then some q.2 else none) rest from rfl,
        ih (if q.1 = k then some q.2 else none), ofirst_assoc]
      by_cases h : q.1 = k
      · rw [if_pos h, if_pos h]
        rfl
      · rw [if_neg h, if_neg h]
        rfl
  show List.foldl _ (if p.1 = k then some p.2 else none) rest = _
  exact aux rest (if p.1 = k then some p.2 else none)

theorem foldl_insert_nodup {α : Type} (l : List (ℤ × α)) (m : List (ℤ × α))
    (h : (m.map Prod.fst).Nodup) :
    (((l.foldl (fun m p => insertLWW m p.1 p.2) m)).map Prod.fst).Nodup := by
  induction l generalizing m with
  | nil => exact h
  | cons p rest ih => exact ih _ (insertLWW_nodup m p.1 p.2 h)

theorem foldl_insert_mem {α : Type} (l : List (ℤ × α)) (m : List (ℤ × α)) (a : ℤ) :
    a ∈ ((l.foldl (fun m p => insertLWW m p.1 p.2) m)).map Prod.fst ↔
      a ∈ m.map Prod.fst ∨ a ∈ l.map Prod.fst := by
  induction l generalizing m with
  | nil => simp
  | cons p rest ih =>
    show a ∈ (List.foldl _ (insertLWW m p.1 p.2) rest).map Prod.fst ↔ _
    rw [ih, insertLWW_mem_fst]
    simp only [List.map_cons, List.mem_cons]
    tauto

theorem foldl_insert_assocFind {α : Type} (l : List (ℤ × α)) (m : List (ℤ × α)) (k : ℤ) :
    assocFind (l.foldl (fun m p => insertLWW m p.1 p.2) m) k =
      ofirst (assocLast l k) (assocFind m k) := by
  induction l generalizing m with
  | nil => rfl
  | cons p rest ih =>
    show assocFind (List.foldl _ (insertLWW m p.1 p.2) rest) k = _
    rw [ih, assocFind_insertLWW, assocLast_cons, ofirst_assoc]
    by_cases h : p.1 = k
    · rw [if_pos h.symm, if_pos h]
      rfl
    · rw [if_neg (fun hc => h hc.symm), if_neg h]
      rfl

theorem dictOfPairs_nodup {α : Type} (l : List (ℤ × α)) :
    ((dictOfPairs l).map Prod.fst).Nodup :=
  foldl_insert_nodup l [] (by simp)

theorem dictOfPairs_mem {α : Type} (l : List (ℤ × α)) (a : ℤ) :
    a ∈ (dictOfPairs l).map Prod.fst ↔ a ∈ l.map Prod.fst := by
  unfold dictOfPairs
  rw [foldl_insert_mem]
  simp

theorem dictOfPairs_assocFind {α : Type} (l : List (ℤ × α)) (k : ℤ) :
    assocFind (dictOfPairs l) k = assocLast l k := by
  unfold dictOfPairs
  rw [foldl_insert_assocFind]
  show ofirst (assocLast l k) none = _
  exact ofirst_none_right _

/-! ### The extractor split loop as dict building -/

theorem pairsOf_cons {α : Type} (f : Contract → α) (ty : OptionType) (t : Contract)
    (rest : List Contract) :
    pairsOf f ty (t :: rest) =
      if t.option_type = ty then (t.strike, f t) :: pairsOf f ty rest
      else pairsOf f ty rest := by
  unfold pairsOf
  rw [List.filterMap_cons]
  by_cases h : t.option_type = ty
  · simp [h]
  · simp [h]

theorem splitField_eq {α : Type} (f : Contract → α) (chain : List Contract) :
    splitField f chain = (dictOfPairs (pairsOf f OptionType.call chain),
                          dictOfPairs (pairsOf f OptionType.put chain)) := by
  have aux : ∀ (c : List Contract) (m₁ m₂ : List (ℤ × α)),
      c.foldl (fun acc t =>
        match t.option_type with
        | OptionType.call => (insertLWW acc.1 t.strike (f t), acc.2)
        | OptionType.put => (acc.1, insertLWW acc.2 t.strike (f t))) (m₁, m₂) =
      ((pairsOf f OptionType.call c).foldl (fun m p => insertLWW m p.1 p.2) m₁,
       (pairsOf f OptionType.put c).foldl (fun m p => insertLWW m p.1 p.2) m₂) := by
    intro c
    induction c with
    | nil =>
      intro m₁ m₂
      rfl
    | cons t rest ih =>
      intro m₁ m₂
      rw [List.foldl_cons, pairsOf_cons f OptionType.call, pairsOf_cons f OptionType.put]
      cases ht : t.option_type
      · rw [if_pos rfl, if_neg (by simp), List.foldl_cons]
        exact ih _ _
      · rw [if_neg (by simp), if_pos rfl, List.foldl_cons]
        exact ih _ _
  unfold splitField dictOfPairs
  exact aux chain [] []

theorem pairsOf_eq_filter {α : Type} (f : Contract → α) (ty : OptionType)
    (chain : List Contract) :
    pairsOf f ty chain =
      (chain.filter (fun t => decide (t.option_type = ty))).map (fun t => (t.strike, f t)) := by
  induction chain with
  | nil => rfl
  | cons t rest ih =>
    rw [pairsOf_cons]
    by_cases h : t.option_type = ty
    · rw [if_pos h, List.filter_cons_of_pos (by simpa using h), List.map_cons, ih]
    · rw [if_neg h, List.filter_cons_of_neg (by simpa using h), ih]

theorem assocLast_eq_getLast {α : Type} (l : List (ℤ × α)) (k : ℤ) :
    assocLast l k = ((l.filter (fun p => decide (p.1 = k))).getLast?).map Prod.snd := by
  induction l with
  | nil => rfl
  | cons p rest ih =>
    rw [assocLast_cons, ih]
    by_cases h : p.1 = k
    · rw [if_pos h, List.filter_cons_of_pos (by simpa using h)]
      cases hf : rest.filter (fun p => decide (p.1 = k)) with
      | nil => rfl
      | cons q qs =>
        rw [List.getLast?_cons_cons]
        have hs : ((q :: qs).getLast?).isSome := by simp [List.getLast?_isSome]
        obtain ⟨x, hx⟩ := Option.isSome_iff_exists.1 hs
        rw [hx]
        rfl
    · rw [if_neg h, List.filter_cons_of_neg (by simpa using h), ofirst_none_right]

theorem getLast_map {α β : Type} (g : α → β) (l : List α) :
    (l.map g).getLast? = (l.getLast?).map g := by
  induction l with
  | nil => rfl
  | cons a rest ih =>
    cases rest with
    | nil => rfl
    | cons b bs =>
      rw [List.map_cons, List.map_cons, List.getLast?_cons_cons, ← List.map_cons,
        List.getLast?_cons_cons, ih]

theorem filter_map_comm {α β : Type} (g : α → β) (q : β → Bool) (l : List α) :
    (l.map g).filter q = (l.filter (fun a => q (g a))).map g := by
  induction l with
  | nil => rfl
  | cons a rest ih =>
    simp only [List.map_cons, List.filter_cons]
    by_cases h : q (g a)
    · simp [h, ih]
    · simp [h, ih]

theorem splitField_calls_nodup {α : Type} (f : Contract → α) (chain : List Contract) :
    (((splitField f chain).1).map Prod.fst).Nodup := by
  rw [splitField_eq]
  exact dictOfPairs_nodup _

theorem splitField_puts_nodup {α : Type} (f : Contract → α) (chain : List Contract) :
    (((splitField f chain).2).map Prod.fst).Nodup := by
  rw [splitField_eq]
  exact dictOfPairs_nodup _

theorem pairsOf_map_fst {α : Type} (f : Contract → α) (ty : OptionType)
    (chain : List Contract) :
    (pairsOf f ty chain).map Prod.fst =
      (chain.filter (fun t => decide (t.option_type = ty))).map Contract.strike := by
  rw [pairsOf_eq_filter, List.map_map]
  rfl

theorem splitField_calls_mem {α : Type} (f : Contract → α) (chain : List Contract) (a : ℤ) :
    a ∈ ((splitField f chain).1).map Prod.fst ↔
      a ∈ (callContracts chain).map Contract.strike := by
  rw [splitField_eq]
  show a ∈ (dictOfPairs (pairsOf f OptionType.call chain)).map Prod.fst ↔ _
  rw [dictOfPairs_mem, pairsOf_map_fst]
  rfl

theorem splitField_puts_mem {α : Type} (f : Contract → α) (chain : List Contract) (a : ℤ) :
    a ∈ ((splitField f chain).2).map Prod.fst ↔
      a ∈ (putContracts chain).map Contract.strike := by
  rw [splitField_eq]
  show a ∈ (dictOfPairs (pairsOf f OptionType.put chain)).map Prod.fst ↔ _
  rw [dictOfPairs_mem, pairsOf_map_fst]
  rfl

theorem splitField_calls_assocFind {α : Type} (f : Contract → α) (chain : List Contract)
    (k : ℤ) :
    assocFind ((splitField f chain).1) k =
      (((callContracts chain).filter (fun t => decide (t.strike = k))).getLast?).map f := by
  rw [splitField_eq]
  show assocFind (dictOfPairs (pairsOf f OptionType.call chain)) k = _
  rw [dictOfPairs_assocFind, assocLast_eq_getLast, pairsOf_eq_filter, filter_map_comm,
    getLast_map, Option.map_map]
  rfl

theorem splitField_puts_assocFind {α : Type} (f : Contract → α) (chain : List Contract)
    (k : ℤ) :
    assocFind ((splitField f chain).2) k =
      (((putContracts chain).filter (fun t => decide (t.strike = k))).getLast?).map f := by
  rw [splitField_eq]
  show assocFind (dictOfPairs (pairsOf f OptionType.put chain)) k = _
  rw [dictOfPairs_assocFind, assocLast_eq_getLast, pairsOf_eq_filter, filter_map_comm,
    getLast_map, Option.map_map]
  rfl

/-! ### Hypothetical closes: sorted distinct strikes -/

theorem sortedDedup_perm (xs : List ℤ) : (sortedDedup xs).Perm xs.dedup :=
  List.perm_insertionSort _ _

theorem sortedDedup_nodup (xs : List ℤ) : (sortedDedup xs).Nodup :=
  ((sortedDedup_perm xs).nodup_iff).2 (List.nodup_dedup xs)

theorem sortedDedup_mem (xs : List ℤ) (a : ℤ) : a ∈ sortedDedup xs ↔ a ∈ xs := by
  rw [(sortedDedup_perm xs).mem_iff, List.mem_dedup]

theorem sortedDedup_length (xs : List ℤ) : (sortedDedup xs).length = xs.dedup.length :=
  (sortedDedup_perm xs).length_eq

theorem sortedDedup_sorted (xs : List ℤ) : (sortedDedup xs).Sorted (fun a b => a ≤ b) :=
  List.sorted_insertionSort _ _

theorem sortedDedup_pairwise (xs : List ℤ) : (sortedDedup xs).Pairwise (fun a b => a < b) :=
  List.Sorted.lt_of_le (sortedDedup_sorted xs) (sortedDedup_nodup xs)

/-! ### Payoffs and cash sums -/

theorem payoffCall_nonneg (close strike oi : ℤ) : 0 ≤ payoffCall close strike oi := by
  unfold payoffCall
  by_cases h : (close - strike) * oi * 100 < 0
  · rw [if_pos h]
  · rw [if_neg h]
    exact le_of_not_lt h

theorem payoffPut_nonneg (close strike oi : ℤ) : 0 ≤ payoffPut close strike oi := by
  unfold payoffPut
  by_cases h : (strike - close) * oi * 100 < 0
  · rw [if_pos h]
  · rw [if_neg h]
    exact le_of_not_lt h

theorem callCashSum_nonneg (close : ℤ) (calls : List (ℤ × ℤ)) :
    0 ≤ callCashSum close calls := by
  unfold callCashSum
  have aux : ∀ (l : List (ℤ × ℤ)) (s : ℤ), 0 ≤ s →
      0 ≤ l.foldl (fun s p => s + payoffCall close p.1 p.2) s := by
    intro l
    induction l with
    | nil => intro s hs; exact hs
    | cons x rest ih =>
      intro s hs
      exact ih _ (add_nonneg hs (payoffCall_nonneg close x.1 x.2))
  exact aux calls 0 (le_refl 0)

theorem putCashSum_nonneg (close : ℤ) (puts : List (ℤ × ℤ)) :
    0 ≤ putCashSum close puts := by
  unfold putCashSum
  have aux : ∀ (l : List (ℤ × ℤ)) (s : ℤ), 0 ≤ s →
      0 ≤ l.foldl (fun s p => s + payoffPut close p.1 p.2) s := by
    intro l
    induction l with
    | nil => intro s hs; exact hs
    | cons x rest ih =>
      intro s hs
      exact ih _ (add_nonneg hs (payoffPut_nonneg close x.1 x.2))
  exact aux puts 0 (le_refl 0)

theorem callCashValues_map_strike (calls : List (ℤ × ℤ)) :
    (callCashValues calls).map StrikeCash.strike = sortedDedup (calls.map Prod.fst) := by
  unfold callCashValues
  rw [List.map_map]
  have h : (StrikeCash.strike ∘ fun close => StrikeCash.mk close (callCashSum close calls)) =
      id := rfl
  rw [h, List.map_id]

theorem putCashValues_map_strike (puts : List (ℤ × ℤ)) :
    (putCashValues puts).map StrikeCash.strike = sortedDedup (puts.map Prod.fst) := by
  unfold putCashValues
  rw [List.map_map]
  have h : (StrikeCash.strike ∘ fun close => StrikeCash.mk close (putCashSum close puts)) =
      id := rfl
  rw [h, List.map_id]

theorem callCashValues_length (calls : List (ℤ × ℤ)) :
    (callCashValues calls).length = ((calls.map Prod.fst).dedup).length := by
  unfold callCashValues
  rw [List.length_map, sortedDedup_length]

theorem putCashValues_length (puts : List (ℤ × ℤ)) :
    (putCashValues puts).length = ((puts.map Prod.fst).dedup).length := by
  unfold putCashValues
  rw [List.length_map, sortedDedup_length]

/-! ### The positional summation loop -/

theorem sumCashValues_eq_none_iff :
    ∀ (ccv pcv : List StrikeCash), sumCashValues ccv pcv = none ↔ pcv.length < ccv.length := by
  intro ccv
  induction ccv with
  | nil =>
    intro pcv
    rw [show sumCashValues [] pcv = some [] from rfl]
    simp
  | cons c cs ih =>
    intro pcv
    cases pcv with
    | nil =>
      rw [show sumCashValues (c :: cs) [] = none from rfl]
      simp
    | cons p ps =>
      show (sumCashValues cs ps).map _ = none ↔ _
      rw [Option.map_eq_none', ih ps]
      simp [Nat.succ_lt_succ_iff]

theorem sumCashValues_map_strike :
    ∀ (ccv pcv scv : List StrikeCash), sumCashValues ccv pcv = some scv →
      scv.map StrikeCash.strike = ccv.map StrikeCash.strike := by
  intro ccv
  induction ccv with
  | nil =>
    intro pcv scv h
    cases pcv with
    | nil =>
      injection h with h'
      rw [← h']
    | cons p ps =>
      injection h with h'
      rw [← h']
  | cons c cs ih =>
    intro pcv scv h
    cases pcv with
    | nil => cases h
    | cons p ps =>
      obtain ⟨rest, hrest, hscv⟩ := Option.map_eq_some'.1 h
      rw [← hscv, List.map_cons, List.map_cons, ih ps rest hrest]

theorem sumCashValues_entry :
    ∀ (ccv pcv scv : List StrikeCash), sumCashValues ccv pcv = some scv →
      ∀ (i : ℕ) (c p : StrikeCash), ccv[i]? = some c → pcv[i]? = some p →
        scv[i]? = some ⟨c.strike, c.cash + p.cash⟩ := by
  intro ccv
  induction ccv with
  | nil =>
    intro pcv scv h i c p hc hp
    simp at hc
  | cons c₀ cs ih =>
    intro pcv scv h i c p hc hp
    cases pcv with
    | nil => cases h
    | cons p₀ ps =>
      obtain ⟨rest, hrest, hscv⟩ := Option.map_eq_some'.1 h
      subst hscv
      cases i with
      | zero =>
        rw [List.getElem?_cons_zero] at hc hp
        injection hc with hc
        injection hp with hp
        subst hc
        subst hp
        simp
      | succ j =>
        rw [List.getElem?_cons_succ] at hc hp
        rw [List.getElem?_cons_succ]
        exact ih ps rest hrest j c p hc hp

/-! ### Python min and the first-minimum selection -/

theorem foldl_min_mem (xs : List ℤ) (x : ℤ) : xs.foldl min x ∈ x :: xs := by
  induction xs generalizing x with
  | nil => simp
  | cons y ys ih =>
    rw [List.foldl_cons]
    rcases List.mem_cons.1 (ih (min x y)) with h | h
    · rw [h]
      rcases min_choice x y with h' | h' <;> rw [h']
      · exact List.mem_cons_self _ _
      · exact List.mem_cons_of_mem _ (List.mem_cons_self _ _)
    · exact List.mem_cons_of_mem _ (List.mem_cons_of_mem _ h)

theorem foldl_min_le_init (xs : List ℤ) (x : ℤ) : xs.foldl min x ≤ x := by
  induction xs generalizing x with
  | nil => exact le_refl x
  | cons y ys ih =>
    rw [List.foldl_cons]
    exact le_trans (ih (min x y)) (min_le_left x y)

theorem foldl_min_le_mem (xs : List ℤ) (x y : ℤ) (hy : y ∈ xs) : xs.foldl min x ≤ y := by
  induction xs generalizing x with
  | nil => cases hy
  | cons z zs ih =>
    rw [List.foldl_cons]
    rcases List.mem_cons.1 hy with rfl | hy'
    · exact le_trans (foldl_min_le_init zs (min x y)) (min_le_right x y)
    · exact ih (min x z) hy'

theorem listMin_spec (xs : List ℤ) (m : ℤ) (h : listMin xs = some m) :
    m ∈ xs ∧ ∀ y ∈ xs, m ≤ y := by
  cases xs with
  | nil => cases h
  | cons x ys =>
    injection h with h'
    subst h'
    refine ⟨foldl_min_mem ys x, ?_⟩
    intro y hy
    rcases List.mem_cons.1 hy with rfl | hy'
    · exact foldl_min_le_init ys y
    · exact foldl_min_le_mem ys x y hy'

theorem find_first_min {p : StrikeCash → Bool} (l : List StrikeCash)
    (hsort : (l.map StrikeCash.strike).Pairwise (fun a b => a < b)) (a : StrikeCash)
    (h : l.find? p = some a) : ∀ e ∈ l, p e → a.strike ≤ e.strike := by
  induction l with
  | nil => cases h
  | cons x rest ih =>
    rw [List.map_cons, List.pairwise_cons] at hsort
    by_cases hx : p x
    · rw [List.find?_cons_of_pos _ hx] at h
      injection h with h
      subst h
      intro e he hpe
      rcases List.mem_cons.1 he with rfl | he'
      · exact le_refl _
      · exact le_of_lt (hsort.1 e.strike (List.mem_map_of_mem _ he'))
    · rw [List.find?_cons_of_neg _ hx] at h
      intro e he hpe
      rcases List.mem_cons.1 he with rfl | he'
      · exact absurd hpe hx
      · exact ih hsort.2 h e he' hpe

theorem maxPain_spec (scv : List StrikeCash) (hne : scv ≠ [])
    (hsort : (scv.map StrikeCash.strike).Pairwise (fun a b => a < b)) :
    ∃ mp, maxPain scv = some mp ∧ mp ∈ scv ∧ (∀ x ∈ scv, mp.cash ≤ x.cash)
      ∧ ∀ x ∈ scv, x.cash = mp.cash → mp.strike ≤ x.strike := by
  obtain ⟨s₀, rest, rfl⟩ : ∃ s₀ rest, scv = s₀ :: rest := by
    cases scv with
    | nil => exact absurd rfl hne
    | cons s₀ rest => exact ⟨s₀, rest, rfl⟩
  have hmin : listMin ((s₀ :: rest).map StrikeCash.cash) =
      some ((rest.map StrikeCash.cash).foldl min s₀.cash) := rfl
  set m := (rest.map StrikeCash.cash).foldl min s₀.cash with hm
  obtain ⟨hmem, hle⟩ := listMin_spec _ m hmin
  obtain ⟨e₀, he₀, he₀c⟩ := List.mem_map.1 hmem
  have hfind : ((s₀ :: rest).find? (fun e => decide (e.cash = m))).isSome := by
    rw [List.find?_isSome]
    exact ⟨e₀, he₀, by simpa using he₀c⟩
  obtain ⟨e, he⟩ := Option.isSome_iff_exists.1 hfind
  have hec : e.cash = m := by simpa using List.find?_some he
  refine ⟨⟨e.strike, m⟩, ?_, ?_, ?_, ?_⟩
  · show maxPain (s₀ :: rest) = _
    unfold maxPain
    rw [hmin]
    show ((s₀ :: rest).find? (fun e => decide (e.cash = m))).map
        (fun e => (⟨e.strike, m⟩ : StrikeCash)) = _
    rw [he]
    rfl
  · have : (⟨e.strike, m⟩ : StrikeCash) = e := by
      rw [← hec]
    rw [this]
    exact List.mem_of_find?_eq_some he
  · intro x hx
    exact hle x.cash (List.mem_map_of_mem _ hx)
  · intro x hx hxc
    exact find_first_min (s₀ :: rest) hsort e he x hx (by simpa using hxc)

/-! ### The zipped open-interest totals -/

theorem foldl_totals (z : List ((ℤ × ℤ) × (ℤ × ℤ))) :
    ∀ (a b : ℤ), z.foldl (fun acc p => (acc.1 + p.1.2, acc.2 + p.2.2)) (a, b) =
      (a + (z.map (fun p => p.1.2)).sum, b + (z.map (fun p => p.2.2)).sum) := by
  induction z with
  | nil =>
    intro a b
    simp
  | cons q rest ih =>
    intro a b
    rw [List.foldl_cons, ih, List.map_cons, List.map_cons, List.sum_cons, List.sum_cons]
    simp [add_assoc]

theorem zip_map_fst_snd (cl pl : List (ℤ × ℤ)) :
    (cl.zip pl).map (fun p => p.1.2) = (cl.take pl.length).map Prod.snd := by
  induction cl generalizing pl with
  | nil => simp
  | cons c cs ih =>
    cases pl with
    | nil => simp
    | cons p ps => simp [ih]

theorem zip_map_snd_snd (cl pl : List (ℤ × ℤ)) :
    (cl.zip pl).map (fun p => p.2.2) = (pl.take cl.length).map Prod.snd := by
  induction cl generalizing pl with
  | nil => simp
  | cons c cs ih =>
    cases pl with
    | nil => simp
    | cons p ps => simp [ih]

theorem take_min_eq {β γ : Type} (cl : List β) (pl : List γ) :
    cl.take (min cl.length pl.length) = cl.take pl.length := by
  rcases le_total cl.length pl.length with h | h
  · rw [min_eq_left h, List.take_length, List.take_of_length_le h]
  · rw [min_eq_right h]

theorem oiTotals_spec (cl pl : List (ℤ × ℤ)) :
    oiTotals cl pl = (((cl.take (min cl.length pl.length)).map Prod.snd).sum,
                      ((pl.take (min cl.length pl.length)).map Prod.snd).sum) := by
  have h2 : pl.take (min cl.length pl.length) = pl.take cl.length := by
    rw [min_comm]
    exact take_min_eq pl cl
  unfold oiTotals
  rw [foldl_totals (cl.zip pl) 0 0, zip_map_fst_snd, zip_map_snd_snd, take_min_eq cl pl, h2]
  simp

/-! ### The greeks append loop and duplicate strikes -/

theorem callContracts_cons (t : Contract) (rest : List Contract) :
    callContracts (t :: rest) =
      if t.option_type = OptionType.call then t :: callContracts rest
      else callContracts rest := by
  unfold callContracts
  rw [List.filter_cons]
  by_cases h : t.option_type = OptionType.call
  · simp [h]
  · simp [h]

theorem putContracts_cons (t : Contract) (rest : List Contract) :
    putContracts (t :: rest) =
      if t.option_type = OptionType.put then t :: putContracts rest
      else putContracts rest := by
  unfold putContracts
  rw [List.filter_cons]
  by_cases h : t.option_type = OptionType.put
  · simp [h]
  · simp [h]

theorem get_greeks_eq (chain : List Contract) :
    get_greeks chain = ((callContracts chain).map (fun t => (t.strike, t.greeks)),
                        (putContracts chain).map (fun t => (t.strike, t.greeks))) := by
  have aux : ∀ (c : List Contract) (a₁ a₂ : List (ℤ × Option GreeksRec)),
      c.foldl (fun acc t =>
        match t.option_type with
        | OptionType.call => (acc.1 ++ [(t.strike, t.greeks)], acc.2)
        | OptionType.put => (acc.1, acc.2 ++ [(t.strike, t.greeks)])) (a₁, a₂) =
      (a₁ ++ (callContracts c).map (fun t => (t.strike, t.greeks)),
       a₂ ++ (putContracts c).map (fun t => (t.strike, t.greeks))) := by
    intro c
    induction c with
    | nil =>
      intro a₁ a₂
      show (a₁, a₂) = _
      rw [show callContracts [] = [] from rfl, show putContracts [] = [] from rfl]
      simp
    | cons t rest ih =>
      intro a₁ a₂
      rw [List.foldl_cons, callContracts_cons, putContracts_cons]
      cases ht : t.option_type
      · rw [if_pos rfl, if_neg (by simp), List.map_cons,
          ih (a₁ ++ [(t.strike, t.greeks)]) a₂]
        simp
      · rw [if_neg (by simp), if_pos rfl, List.map_cons,
          ih a₁ (a₂ ++ [(t.strike, t.greeks)])]
        simp
  unfold get_greeks
  rw [aux chain [] []]
  simp

theorem nodup_strike_of_nodup_pair (l : List Contract) (ty : OptionType)
    (hty : ∀ t ∈ l, t.option_type = ty)
    (h : (l.map (fun t => (t.strike, t.option_type))).Nodup) :
    (l.map Contract.strike).Nodup := by
  induction l with
  | nil => simp
  | cons t rest ih =>
    rw [List.map_cons, List.nodup_cons] at h ⊢
    obtain ⟨h1, h2⟩ := h
    refine ⟨?_, ih (fun u hu => hty u (List.mem_cons_of_mem _ hu)) h2⟩
    intro hmem
    obtain ⟨u, hu, hus⟩ := List.mem_map.1 hmem
    apply h1
    apply List.mem_map.2
    refine ⟨u, hu, ?_⟩
    rw [hty u (List.mem_cons_of_mem _ hu), hty t (List.mem_cons_self _ _), hus]

theorem callContracts_strike_nodup (chain : List Contract)
    (h : (chain.map (fun t => (t.strike, t.option_type))).Nodup) :
    ((callContracts chain).map Contract.strike).Nodup := by
  apply nodup_strike_of_nodup_pair _ OptionType.call
  · intro t ht
    unfold callContracts at ht
    simpa using (List.mem_filter.1 ht).2
  · exact List.Sublist.nodup (List.Sublist.map _ (List.filter_sublist chain)) h

theorem putContracts_strike_nodup (chain : List Contract)
    (h : (chain.map (fun t => (t.strike, t.option_type))).Nodup) :
    ((putContracts chain).map Contract.strike).Nodup := by
  apply nodup_strike_of_nodup_pair _ OptionType.put
  · intro t ht
    unfold putContracts at ht
    simpa using (List.mem_filter.1 ht).2
  · exact List.Sublist.nodup (List.Sublist.map _ (List.filter_sublist chain)) h

/-! ## The claims -/

/-- C1: for every chain producing a non-empty `sum_cash_values` list, the max
pain result is a pair in the list whose cash is the minimum of all summed cash
values, and on ties the strike chosen is the first minimal entry in
ascending-strike iteration order, i.e. the lowest minimal strike. -/
theorem max_pain_is_first_min (calls puts : List (ℤ × ℤ)) (scv : List StrikeCash)
    (h : sumCashValues (callCashValues calls) (putCashValues puts) = some scv)
    (hne : scv ≠ []) :
    ∃ mp, maxPain scv = some mp ∧ mp ∈ scv ∧ (∀ x ∈ scv, mp.cash ≤ x.cash)
      ∧ ∀ x ∈ scv, x.cash = mp.cash → mp.strike ≤ x.strike := by
  have hmap := sumCashValues_map_strike _ _ _ h
  have hsort : (scv.map StrikeCash.strike).Pairwise (fun a b => a < b) := by
    rw [hmap, callCashValues_map_strike]
    exact sortedDedup_pairwise _
  exact maxPain_spec scv hne hsort

theorem max_pain_is_first_min_witness :
    ∃ mp, maxPain [⟨100, 6000⟩, ⟨105, 5000⟩] = some mp
      ∧ mp ∈ [(⟨100, 6000⟩ : StrikeCash), ⟨105, 5000⟩]
      ∧ (∀ x ∈ [(⟨100, 6000⟩ : StrikeCash), ⟨105, 5000⟩], mp.cash ≤ x.cash)
      ∧ ∀ x ∈ [(⟨100, 6000⟩ : StrikeCash), ⟨105, 5000⟩],
          x.cash = mp.cash → mp.strike ≤ x.strike :=
  max_pain_is_first_min [(100, 10), (105, 5)] [(100, 8), (105, 12)]
    [⟨100, 6000⟩, ⟨105, 5000⟩] (by decide) (by decide)

/-- C2 as amended: on an empty chain the volume, implied-volatility,
last/bid/ask and greeks extractors do return empty-result sentinels without
raising, but `get_open_interest` raises `ZeroDivisionError` computing the
put/call ratio (total_call_oi is 0, modelled as `none`), and
`get_cash_values` propagates that exception instead of returning its empty
sentinel. -/
theorem empty_chain_behavior :
    get_volume ([] : List Contract) = ([], [])
    ∧ get_implied_volatility ([] : List Contract) = some ([], [])
    ∧ get_last_bid_ask ([] : List Contract) = ([], [])
    ∧ get_greeks ([] : List Contract) = ([], [])
    ∧ get_open_interest ([] : List Contract) = none
    ∧ get_cash_values ([] : List Contract) = none :=
  ⟨rfl, rfl, rfl, rfl, rfl, rfl⟩

/-- Counterexample to C2 as stated: on the empty chain the open interest
aggregation does not return an empty-result sentinel; its put/call ratio
division raises `ZeroDivisionError` (`none`), and the max pain computation
propagates it. -/
theorem empty_chain_aggregation_raises :
    get_open_interest ([] : List Contract) = none
    ∧ get_cash_values ([] : List Contract) = none :=
  ⟨rfl, rfl⟩

/-- C3: with non-negative open interest throughout the chain, every
per-contract payoff computed by the max pain calculator is ≥ 0, and hence
every per-close call cash sum and put cash sum is ≥ 0. (The per-contract
zero floor makes the payoffs non-negative outright.) -/
theorem payoffs_and_sums_nonneg (calls puts : List (ℤ × ℤ))
    (hc : ∀ p ∈ calls, 0 ≤ p.2) (hp : ∀ p ∈ puts, 0 ≤ p.2) :
    (∀ close ∈ sortedDedup (calls.map Prod.fst), ∀ p ∈ calls,
        0 ≤ payoffCall close p.1 p.2)
    ∧ (∀ close ∈ sortedDedup (puts.map Prod.fst), ∀ p ∈ puts,
        0 ≤ payoffPut close p.1 p.2)
    ∧ (∀ e ∈ callCashValues calls, 0 ≤ e.cash)
    ∧ (∀ e ∈ putCashValues puts, 0 ≤ e.cash) := by
  refine ⟨fun close _ p _ => payoffCall_nonneg close p.1 p.2,
          fun close _ p _ => payoffPut_nonneg close p.1 p.2, ?_, ?_⟩
  · intro e he
    unfold callCashValues at he
    obtain ⟨close, _, rfl⟩ := List.mem_map.1 he
    exact callCashSum_nonneg close calls
  · intro e he
    unfold putCashValues at he
    obtain ⟨close, _, rfl⟩ := List.mem_map.1 he
    exact putCashSum_nonneg close puts

theorem payoffs_and_sums_nonneg_witness :
    (∀ close ∈ sortedDedup ([((100 : ℤ), (10 : ℤ)), (105, 5)].map Prod.fst),
        ∀ p ∈ [((100 : ℤ), (10 : ℤ)), (105, 5)], 0 ≤ payoffCall close p.1 p.2)
    ∧ (∀ close ∈ sortedDedup ([((100 : ℤ), (8 : ℤ)), (105, 12)].map Prod.fst),
        ∀ p ∈ [((100 : ℤ), (8 : ℤ)), (105, 12)], 0 ≤ payoffPut close p.1 p.2)
    ∧ (∀ e ∈ callCashValues [((100 : ℤ), (10 : ℤ)), (105, 5)], 0 ≤ e.cash)
    ∧ (∀ e ∈ putCashValues [((100 : ℤ), (8 : ℤ)), (105, 12)], 0 ≤ e.cash) :=
  payoffs_and_sums_nonneg [(100, 10), (105, 5)] [(100, 8), (105, 12)]
    (by decide) (by decide)

/-- C4 as amended: the open interest aggregation fails (Python raises
`ZeroDivisionError`, modelled as `none`) exactly when `total_call_oi = 0`;
no NaN/undefined value is surfaced. When it succeeds, the returned
`put_call_ratio` equals `total_put_oi / total_call_oi` with a non-zero
denominator. -/
theorem put_call_ratio_division (chain : List Contract) :
    (get_open_interest chain = none ↔
      (oiTotals (splitField (fun t => t.open_interest) chain).1
                (splitField (fun t => t.open_interest) chain).2).1 = 0)
    ∧ ∀ r, get_open_interest chain = some r →
        r.put_call_ratio = (r.total_put_oi : ℚ) / (r.total_call_oi : ℚ)
        ∧ r.total_call_oi ≠ 0 := by
  unfold get_open_interest
  by_cases hz : (oiTotals (splitField (fun t => t.open_interest) chain).1
      (splitField (fun t => t.open_interest) chain).2).1 = 0
  · rw [if_pos hz]
    refine ⟨by simp [hz], ?_⟩
    intro r hr
    cases hr
  · rw [if_neg hz]
    refine ⟨by simp [hz], ?_⟩
    intro r hr
    injection hr with hr
    rw [← hr]
    exact ⟨rfl, hz⟩

theorem put_call_ratio_division_witness :
    onePairOI.put_call_ratio = (onePairOI.total_put_oi : ℚ) / (onePairOI.total_call_oi : ℚ)
    ∧ onePairOI.total_call_oi ≠ 0 :=
  (put_call_ratio_division onePairChain).2 onePairOI rfl

/-- Counterexample to C4 as stated: on a chain with a put record but no call
open interest, `total_call_oi = 0` and the aggregation raises
`ZeroDivisionError` (`none`) instead of surfacing an undefined/NaN ratio. -/
theorem put_call_ratio_zero_denominator_raises :
    get_open_interest putOnlyChain = none :=
  rfl

/-- C5: the totals returned by the open interest aggregator are the sums of
open interest over only the first `min(len(call_list), len(put_list))`
entries of each list (the zipped ones); trailing unmatched entries of the
longer list contribute nothing. -/
theorem oi_totals_zip_truncated (chain : List Contract) (r : OIResult)
    (h : get_open_interest chain = some r) :
    r.total_call_oi = ((r.Calls.take (min r.Calls.length r.Puts.length)).map Prod.snd).sum
    ∧ r.total_put_oi = ((r.Puts.take (min r.Calls.length r.Puts.length)).map Prod.snd).sum := by
  unfold get_open_interest at h
  by_cases hz : (oiTotals (splitField (fun t => t.open_interest) chain).1
      (splitField (fun t => t.open_interest) chain).2).1 = 0
  · rw [if_pos hz] at h
    cases h
  · rw [if_neg hz] at h
    injection h with h
    rw [← h]
    show (oiTotals _ _).1 = _ ∧ (oiTotals _ _).2 = _
    rw [oiTotals_spec]
    exact ⟨rfl, rfl⟩

theorem oi_totals_zip_truncated_witness :
    onePairOI.total_call_oi =
      ((onePairOI.Calls.take (min onePairOI.Calls.length onePairOI.Puts.length)).map
        Prod.snd).sum
    ∧ onePairOI.total_put_oi =
      ((onePairOI.Puts.take (min onePairOI.Calls.length onePairOI.Puts.length)).map
        Prod.snd).sum :=
  oi_totals_zip_truncated onePairChain onePairOI rfl

/-- C6: when the distinct call-strike and put-strike lists have equal length,
the positional summation succeeds and the i-th summed entry carries the
strike of `call_cash_values[i]` and the cash
`call_cash_values[i].cash + put_cash_values[i].cash`, combined by position,
not by matching strike value. -/
theorem sum_positional (calls puts : List (ℤ × ℤ))
    (h : ((calls.map Prod.fst).dedup).length = ((puts.map Prod.fst).dedup).length) :
    ∃ scv, sumCashValues (callCashValues calls) (putCashValues puts) = some scv
      ∧ ∀ (i : ℕ) (c p : StrikeCash),
          (callCashValues calls)[i]? = some c → (putCashValues puts)[i]? = some p →
          scv[i]? = some ⟨c.strike, c.cash + p.cash⟩ := by
  have hlen : (putCashValues puts).length = (callCashValues calls).length := by
    rw [callCashValues_length, putCashValues_length, h]
  have hnn : ¬ sumCashValues (callCashValues calls) (putCashValues puts) = none := by
    rw [sumCashValues_eq_none_iff]
    omega
  obtain ⟨scv, hscv⟩ := Option.ne_none_iff_exists'.1 hnn
  exact ⟨scv, hscv, fun i c p hc hp => sumCashValues_entry _ _ _ hscv i c p hc hp⟩

theorem sum_positional_witness :
    ∃ scv, sumCashValues (callCashValues [((100 : ℤ), (10 : ℤ))])
        (putCashValues [((105 : ℤ), (8 : ℤ))]) = some scv
      ∧ ∀ (i : ℕ) (c p : StrikeCash),
          (callCashValues [((100 : ℤ), (10 : ℤ))])[i]? = some c →
          (putCashValues [((105 : ℤ), (8 : ℤ))])[i]? = some p →
          scv[i]? = some ⟨c.strike, c.cash + p.cash⟩ :=
  sum_positional [(100, 10)] [(105, 8)] (by decide)

/-- C7: each side's list built by the open interest extraction loop has
exactly one entry per strike occurring on that side (keys are distinct and
cover exactly the strikes present), and the value stored for a strike is the
open interest of the LAST record with that strike in provider order
(last-write-wins dict assignment). -/
theorem oi_lists_unique_last_write (chain : List Contract) :
    (((splitField (fun t => t.open_interest) chain).1).map Prod.fst).Nodup
    ∧ (((splitField (fun t => t.open_interest) chain).2).map Prod.fst).Nodup
    ∧ (∀ k, k ∈ ((splitField (fun t => t.open_interest) chain).1).map Prod.fst ↔
          k ∈ (callContracts chain).map Contract.strike)
    ∧ (∀ k, k ∈ ((splitField (fun t => t.open_interest) chain).2).map Prod.fst ↔
          k ∈ (putContracts chain).map Contract.strike)
    ∧ (∀ k, assocFind ((splitField (fun t => t.open_interest) chain).1) k =
          (((callContracts chain).filter (fun t => decide (t.strike = k))).getLast?).map
            (fun t => t.open_interest))
    ∧ (∀ k, assocFind ((splitField (fun t => t.open_interest) chain).2) k =
          (((putContracts chain).filter (fun t => decide (t.strike = k))).getLast?).map
            (fun t => t.open_interest)) :=
  ⟨splitField_calls_nodup _ _, splitField_puts_nodup _ _,
   fun k => splitField_calls_mem _ _ k, fun k => splitField_puts_mem _ _ k,
   fun k => splitField_calls_assocFind _ _ k, fun k => splitField_puts_assocFind _ _ k⟩

/-- C8 as amended: the max pain per-strike cash lists are strictly ascending
in strike (sorted, no duplicates). The dict-built lists — the open interest
aggregator's call/put lists and those of the volume, implied-volatility and
last/bid/ask extractors — contain no duplicate strikes within one side, and
the greeks extractor's append-built lists contain no duplicate strikes
whenever the chain has no duplicate (strike, option_type) pair; but these
extractor lists are not, in general, ascending by strike. -/
theorem strike_lists_order (chain : List Contract) (calls puts : List (ℤ × ℤ)) :
    (((splitField (fun t => t.open_interest) chain).1).map Prod.fst).Nodup
    ∧ (((splitField (fun t => t.open_interest) chain).2).map Prod.fst).Nodup
    ∧ (((get_volume chain).1).map Prod.fst).Nodup
    ∧ (((get_volume chain).2).map Prod.fst).Nodup
    ∧ (((get_last_bid_ask chain).1).map Prod.fst).Nodup
    ∧ (((get_last_bid_ask chain).2).map Prod.fst).Nodup
    ∧ (∀ cl pl, get_implied_volatility chain = some (cl, pl) →
        (cl.map Prod.fst).Nodup ∧ (pl.map Prod.fst).Nodup)
    ∧ ((chain.map (fun t => (t.strike, t.option_type))).Nodup →
        (((get_greeks chain).1).map Prod.fst).Nodup
        ∧ (((get_greeks chain).2).map Prod.fst).Nodup)
    ∧ ((callCashValues calls).map StrikeCash.strike).Pairwise (fun a b => a < b)
    ∧ ((putCashValues puts).map StrikeCash.strike).Pairwise (fun a b => a < b) := by
  refine ⟨splitField_calls_nodup _ _, splitField_puts_nodup _ _,
    splitField_calls_nodup _ _, splitField_puts_nodup _ _,
    splitField_calls_nodup _ _, splitField_puts_nodup _ _, ?_, ?_, ?_, ?_⟩
  · intro cl pl h
    unfold get_implied_volatility at h
    by_cases hall : chain.all (fun t => t.greeks.isSome)
    · rw [if_pos hall] at h
      injection h with h
      have h1 : (splitField (fun t => (Option.map GreeksRec.mid_iv t.greeks).getD 0)
          chain).1 = cl := by rw [h]
      have h2 : (splitField (fun t => (Option.map GreeksRec.mid_iv t.greeks).getD 0)
          chain).2 = pl := by rw [h]
      rw [← h1, ← h2]
      exact ⟨splitField_calls_nodup _ _, splitField_puts_nodup _ _⟩
    · rw [if_neg hall] at h
      cases h
  · intro hnd
    rw [get_greeks_eq]
    constructor
    · show (((callContracts chain).map (fun t => (t.strike, t.greeks))).map
        Prod.fst).Nodup
      rw [List.map_map]
      exact callContracts_strike_nodup chain hnd
    · show (((putContracts chain).map (fun t => (t.strike, t.greeks))).map
        Prod.fst).Nodup
      rw [List.map_map]
      exact putContracts_strike_nodup chain hnd
  · rw [callCashValues_map_strike]
    exact sortedDedup_pairwise _
  · rw [putCashValues_map_strike]
    exact sortedDedup_pairwise _

theorem strike_lists_order_witness :
    ((([((100 : ℤ), (0 : ℚ))]).map Prod.fst).Nodup
      ∧ (([] : List (ℤ × ℚ)).map Prod.fst).Nodup)
    ∧ ((((get_greeks onePairChain).1).map Prod.fst).Nodup
      ∧ (((get_greeks onePairChain).2).map Prod.fst).Nodup) :=
  ⟨(strike_lists_order ivChain [] []).2.2.2.2.2.2.1 [(100, 0)] [] rfl,
   (strike_lists_order onePairChain [] []).2.2.2.2.2.2.2.1 (by decide)⟩

/-- Counterexample to C8 as stated: a chain whose call strikes arrive in
descending provider order yields an aggregator call list with strikes
[110, 100], which is not ascending; and a chain with a duplicate
(strike, option_type) pair yields greeks-extractor strikes [100, 100],
which are not duplicate-free. -/
theorem strike_lists_order_counterexample :
    (((splitField (fun t => t.open_interest) descendingChain).1).map Prod.fst = [110, 100]
    ∧ ¬ (((splitField (fun t => t.open_interest) descendingChain).1).map
          Prod.fst).Sorted (fun a b => a ≤ b))
    ∧ (((get_greeks dupStrikeChain).1).map Prod.fst = [100, 100]
    ∧ ¬ (((get_greeks dupStrikeChain).1).map Prod.fst).Nodup) := by
  refine ⟨⟨rfl, by decide⟩, rfl, by decide⟩

/-- C9: with no duplicate (strike, option_type) pairs, splitting a chain into
its call-side and put-side records by `option_type` and recombining yields a
permutation of the original chain: no contract lost, none duplicated. -/
theorem partition_round_trip (chain : List Contract)
    (h : (chain.map (fun t => (t.strike, t.option_type))).Nodup) :
    (callContracts chain ++ putContracts chain).Perm chain := by
  have hcongr : putContracts chain =
      chain.filter (fun t => ! decide (t.option_type = OptionType.call)) := by
    unfold putContracts
    apply List.filter_congr
    intro t _
    cases t.option_type <;> rfl
  rw [hcongr]
  exact List.filter_append_perm _ chain

theorem partition_round_trip_witness :
    (callContracts onePairChain ++ putContracts onePairChain).Perm onePairChain :=
  partition_round_trip onePairChain (by decide)

/-- C10: the positional summation loop of `get_cash_values` fails with an
out-of-range access (IndexError, modelled as `none`) exactly when the number
of distinct call strikes exceeds the number of distinct put strikes; when the
distinct put strikes are at least as many, every access is in range. -/
theorem sum_loop_index_safety (calls puts : List (ℤ × ℤ)) :
    sumCashValues (callCashValues calls) (putCashValues puts) = none
      ↔ ((puts.map Prod.fst).dedup).length < ((calls.map Prod.fst).dedup).length := by
  rw [sumCashValues_eq_none_iff, callCashValues_length, putCashValues_length]

end TradeLens
